import Mathlib

/-!
Verification of the SODG (Surging Object Di-Graph) library against its
natural-language specification.  The Rust sources are shallowly embedded:
machine integers become `Nat`/`Int` (with explicit wrap-around where the
source relies on it), byte buffers become `List Nat` of values `< 256`,
strings become `List Char`, and fallible operations return
`Except String _` or `Option _`.
-/

set_option maxRecDepth 10000
set_option linter.unusedSectionVars false

/-- Characters of a Rust `String`, kept as a plain list. -/
abbrev RStr := List Char

namespace Sodg

/-! ## `Hex` — polymorphic byte payload (src/hex.rs, src/lib.rs)

`pub enum Hex { Vector(Vec<u8>), Bytes([u8; 24], usize) }`; the inline
array has `HEX_SIZE = 24` slots, of which the first `size` are meaningful. -/

def HEX_SIZE : Nat := 24

inductive Hex where
  /-- `Hex::Vector(Vec<u8>)`: heap-backed byte vector. -/
  | Vector (v : List Nat)
  /-- `Hex::Bytes([u8; HEX_SIZE], usize)`: inline array plus length. -/
  | Bytes (arr : List Nat) (size : Nat)
  deriving Repr, DecidableEq

namespace Hex

/-- `Hex::empty()`: `Self::Bytes(Self::BLANK, 0)`. -/
def empty : Hex := .Bytes (List.replicate HEX_SIZE 0) 0

/-- `Hex::bytes()`: the active byte prefix. -/
def bytes : Hex → List Nat
  | .Vector v => v
  | .Bytes arr size => arr.take size

/-- `Hex::len()`. -/
def len : Hex → Nat
  | .Vector v => v.length
  | .Bytes _ size => size

/-- `Hex::is_empty()`. -/
def is_empty (h : Hex) : Bool := h.len = 0

/-- `Hex::from_slice(&[u8])`: inline when the slice fits into `HEX_SIZE`
bytes (the remaining array cells stay zero), heap otherwise. -/
def from_slice (s : List Nat) : Hex :=
  if s.length ≤ HEX_SIZE then
    .Bytes (s ++ List.replicate (HEX_SIZE - s.length) 0) s.length
  else
    .Vector s

/-- `Hex::from_vec(Vec<u8>)`. -/
def from_vec (s : List Nat) : Hex :=
  if s.length ≤ HEX_SIZE then from_slice s else .Vector s

/-- `Hex::concat(&self, h)`.  Note that in the `Bytes` overflow arm the
source extends the result with the whole `HEX_SIZE`-byte array `b`
(`v.extend_from_slice(b)`), not with its active prefix `&b[..*l]`. -/
def concat (h1 h2 : Hex) : Hex :=
  match h1 with
  | .Vector v => .Vector (v ++ h2.bytes)
  | .Bytes b l =>
      if l + h2.len ≤ HEX_SIZE then
        .Bytes (b.take l ++ h2.bytes ++ b.drop (l + h2.len)) (l + h2.len)
      else
        .Vector (b ++ h2.bytes)

/-- Big-endian value of a byte list (`from_be_bytes`). -/
def beNat (bs : List Nat) : Nat := bs.foldl (fun acc b => acc * 256 + b) 0

/-- `i64::from_be_bytes`: two's-complement reading of 8 bytes. -/
def i64OfBe (bs : List Nat) : Int :=
  let n := beNat bs
  if n < 2 ^ 63 then (n : Int) else (n : Int) - 2 ^ 64

/-- `Hex::to_i64()`: requires exactly 8 bytes (`try_into` to `[u8; 8]`),
otherwise an error carrying the byte count is returned. -/
def to_i64 (h : Hex) : Except String Int :=
  if h.bytes.length = 8 then
    .ok (i64OfBe h.bytes)
  else
    .error ("There is not enough bytes, cannot make INT (just "
      ++ toString h.bytes.length ++ " while we need eight)")

/-- `Hex::to_f64()`: same 8-byte requirement; `f64::from_be_bytes` is a
pure bit reinterpretation, so the value is modelled by its 64-bit
big-endian bit pattern. -/
def to_f64 (h : Hex) : Except String Nat :=
  if h.bytes.length = 8 then
    .ok (beNat h.bytes)
  else
    .error ("There is not enough bytes, cannot make FLOAT (just "
      ++ toString h.bytes.length ++ " while we need eight)")

/-- One uppercase hexadecimal digit (`{:02X}` formatting). -/
def hexDigitChar (d : Nat) : Char :=
  if d < 10 then Char.ofNat (48 + d) else Char.ofNat (55 + d)

/-- Two-digit uppercase hexadecimal image of one byte. -/
def byteHex (b : Nat) : RStr := [hexDigitChar (b / 16), hexDigitChar (b % 16)]

/-- `Vec::join("-")`: blocks separated by single dashes. -/
def joinDash : List RStr → RStr
  | [] => []
  | [x] => x
  | x :: y :: xs => x ++ '-' :: joinDash (y :: xs)

/-- `Hex::print()`: `"--"` for the empty payload, otherwise the bytes in
two-digit uppercase hex joined by `-`. -/
def print (h : Hex) : RStr :=
  if h.bytes.isEmpty then ['-', '-']
  else joinDash (h.bytes.map byteHex)

/-- Value of one hexadecimal digit accepted by `hex::decode`
(`0-9`, `a-f`, `A-F`). -/
def hexVal (c : Char) : Option Nat :=
  if '0' ≤ c ∧ c ≤ '9' then some (c.toNat - 48)
  else if 'a' ≤ c ∧ c ≤ 'f' then some (c.toNat - 87)
  else if 'A' ≤ c ∧ c ≤ 'F' then some (c.toNat - 55)
  else none

/-- `hex::decode` on a dash-free string: pairs of hex digits; odd length
or a non-hex character is an error. -/
def hexDecode : RStr → Option (List Nat)
  | [] => some []
  | [_] => none
  | c1 :: c2 :: rest =>
    match hexVal c1, hexVal c2, hexDecode rest with
    | some h, some l, some bs => some ((h * 16 + l) :: bs)
    | _, _, _ => none

/-- `Hex::from_str`: drop every `-`, then `hex::decode` and `from_vec`. -/
def from_str (s : RStr) : Except String Hex :=
  match hexDecode (s.filter (· ≠ '-')) with
  | some bs => .ok (from_vec bs)
  | none => .error "unable to decode the hex string"

/-- Well-formedness of the embedding: bytes are `u8` values and the
inline array always has exactly `HEX_SIZE` cells with `size ≤ HEX_SIZE`
(both hold for every `Hex` the Rust constructors can build). -/
def wf : Hex → Prop
  | .Vector v => ∀ b ∈ v, b < 256
  | .Bytes arr size => arr.length = HEX_SIZE ∧ size ≤ HEX_SIZE ∧ ∀ b ∈ arr, b < 256

instance : DecidablePred wf := by
  intro h
  cases h <;> simp only [wf] <;> infer_instance

end Hex

end Sodg

namespace Sodg

/-! ## `Label` — edge key (src/label.rs)

`enum Label { Alpha(usize), Greek(char), Str([char; 8]) }`.  The `Str`
payload is a fixed array of 8 characters; it is modelled by a list that
the parser always builds with length 8. -/

inductive Label where
  | Alpha (i : Nat)
  | Greek (c : Char)
  | Str (a : List Char)
  deriving Repr, DecidableEq

namespace Label

/-- Number of bytes of one character in UTF-8 (Rust `char::len_utf8`);
`str::len` counts these bytes. -/
def charUtf8Size (c : Char) : Nat :=
  if c.toNat < 0x80 then 1
  else if c.toNat < 0x800 then 2
  else if c.toNat < 0x10000 then 3
  else 4

/-- Rust `str::len`: the UTF-8 byte length of a string. -/
def utf8Len (s : RStr) : Nat := (s.map charUtf8Size).sum

/-- Decimal digit-string parsing: one or more digits whose value fits
the 64-bit `usize`. -/
def parseDigits (ds : RStr) : Option Nat :=
  if ds ≠ [] ∧ ds.all (·.isDigit) then
    if ds.foldl (fun acc c => acc * 10 + (c.toNat - 48)) 0 < 2 ^ 64 then
      some (ds.foldl (fun acc c => acc * 10 + (c.toNat - 48)) 0)
    else none
  else none

/-- `usize::from_str` (via `tail.parse::<usize>()`): an optional leading
`+`, then one or more decimal digits, rejecting values that overflow
the 64-bit `usize`. -/
def parseUsize (s : RStr) : Option Nat :=
  parseDigits (if s.head? = some '+' then s.tail else s)

/-- `Label::from_str`: `α`-prefixed input parses the remaining characters
as a `usize` (`Alpha`); otherwise input of UTF-8 byte length 1 becomes
`Greek`; otherwise up to 8 characters are padded with spaces into `Str`,
and longer input is rejected. -/
def from_str (s : RStr) : Option Label :=
  if s.head? = some 'α' then
    (parseUsize s.tail).map .Alpha
  else if utf8Len s = 1 then
    some (.Greek (s.headD ' '))
  else if s.length > 8 then none
  else some (.Str (s ++ List.replicate (8 - s.length) ' '))

/-- Decimal digit character (`{}` formatting of one digit). -/
def digitChar (d : Nat) : Char := Char.ofNat (48 + d)

/-- Canonical decimal image of a `usize` (`format!("{i}")`). -/
def natDecimal (n : Nat) : RStr :=
  if n = 0 then ['0'] else ((Nat.digits 10 n).map digitChar).reverse

/-- `Debug for Label` (also used by `Display`): `Greek` prints its
character, `Alpha` prints `α` followed by the decimal index, and `Str`
prints its characters with every space filtered out. -/
def print : Label → RStr
  | .Greek c => [c]
  | .Alpha i => 'α' :: natDecimal i
  | .Str a => a.filter (· ≠ ' ')

end Label

end Sodg

/-! ## `Roll<K, V, N>` — fixed-capacity map (src/roll.rs; src/edges.rs has
the same algorithm with `N = ROLL_LIMIT`)

The array `items: [RollItem<K, V>; N]` is modelled by a list of `N`
optional pairs; the `Out of space!` abort of `insert` is modelled by
`none`. -/

abbrev Roll (K V : Type) := List (Option (K × V))

namespace Roll

variable {K V : Type} [DecidableEq K]

/-- `Roll::len`: the number of occupied slots. -/
def len (r : Roll K V) : Nat := r.countP (·.isSome)

/-- `Roll::contains_key`. -/
def contains_key (r : Roll K V) (k : K) : Bool :=
  r.any fun it => match it with
    | some (bk, _) => bk = k
    | none => false

/-- `Roll::remove`: vacate the first slot whose key equals `k`
(the loop breaks after the first hit). -/
def remove : Roll K V → K → Roll K V
  | [], _ => []
  | none :: rest, k => none :: remove rest k
  | some (bk, bv) :: rest, k =>
      if bk = k then none :: rest else some (bk, bv) :: remove rest k

/-- The placement loop of `Roll::insert`: put the pair into the
lowest-index empty slot, or abort (`none`) when every slot is taken. -/
def place : Roll K V → K → V → Option (Roll K V)
  | [], _, _ => none
  | none :: rest, k, v => some (some (k, v) :: rest)
  | some p :: rest, k, v => (place rest k v).map (some p :: ·)

/-- `Roll::insert`: `self.remove(k)` and then place `(k, v)` into the
first empty slot, aborting with `Out of space!` when there is none. -/
def insert (r : Roll K V) (k : K) (v : V) : Option (Roll K V) :=
  place (remove r k) k v

/-- `Roll::get`: first slot holding the key. -/
def get (r : Roll K V) (k : K) : Option V :=
  (r.findSome? fun it => match it with
    | some (bk, bv) => if bk = k then some bv else none
    | none => none)

end Roll

namespace SodgGraph

/-! ## `Sodg` — the graph (src/lib.rs, src/ctors.rs, src/ops.rs,
src/alerts.rs)

`pub(crate) struct Edge { to: u32, a: String }`,
`pub(crate) struct Vertex { edges: Vec<Edge>, data: Hex, parents:
HashSet<u32>, taken: bool }` and
`pub struct Sodg { vertices: HashMap<u32, Vertex>, next_v: u32,
alerts: Vec<Alert>, alerts_active: bool }`.

The `HashMap` is modelled by an association list with replace-or-append
insertion; `next_v` is irrelevant to the claims but kept.  The `alerts`
vector holds function pointers, so it cannot be carried as data: after
`Sodg::empty()` it always contains exactly the five default checks from
`ctors.rs`, which are hard-coded into `validate` below, and
`alerts_active` is the remaining state (`Sodg::empty` installs the five
alerts and then calls `alerts_off()`, so it starts `false` in the
default, non-`sober` build). -/

open Sodg (Hex)

structure Edge where
  /-- The field is named `to` in Rust; `to` is a Lean keyword. -/
  toV : Nat
  a : RStr
  deriving Repr, DecidableEq

structure Vertex where
  edges : List Edge
  data : Hex
  parents : List Nat
  taken : Bool
  deriving Repr, DecidableEq

/-- `Vertex::empty()`. -/
def Vertex.empty : Vertex := ⟨[], Hex.empty, [], false⟩

structure Sodg where
  vertices : List (Nat × Vertex)
  next_v : Nat
  alertsActive : Bool
  deriving Repr, DecidableEq

/-- `HashMap::get`. -/
def lookup (g : Sodg) (v : Nat) : Option Vertex :=
  (g.vertices.find? (·.1 = v)).map (·.2)

/-- `HashMap::contains_key`. -/
def containsV (g : Sodg) (v : Nat) : Bool := (lookup g v).isSome

/-- `HashMap::insert` on the underlying association list. -/
def upsert : List (Nat × Vertex) → Nat → Vertex → List (Nat × Vertex)
  | [], v, vtx => [(v, vtx)]
  | (k, w) :: rest, v, vtx =>
      if k = v then (v, vtx) :: rest else (k, w) :: upsert rest v vtx

def insertV (g : Sodg) (v : Nat) (vtx : Vertex) : Sodg :=
  { g with vertices := upsert g.vertices v vtx }

/-- `Sodg::split_a`: split a label at the first `/` into head and tail
(`splitn(2, '/')`; the tail is empty when there is no slash). -/
def split_a (a : RStr) : RStr × RStr :=
  let head := a.takeWhile (· ≠ '/')
  (head, (a.drop head.length).tail)

/-- Head part of a label, the only part `bind` and `kid` compare. -/
def headOf (a : RStr) : RStr := a.takeWhile (· ≠ '/')

/-- The five default alert closures installed by `Sodg::empty()`
(src/ctors.rs), in order.  In Rust each closure calls
`g.vertices.get(v).unwrap()`, which aborts when `v` is absent; the
abort is modelled by a sentinel message (none of the theorems below
reaches that case, nor even an active-alerts state). -/
def alertMsgs (g : Sodg) (vx : List Nat) : List (List String) :=
  let per (f : Nat → Vertex → List String) : List String :=
    vx.flatMap fun v =>
      match lookup g v with
      | none => ["aborted: vertex is absent"]
      | some vtx => f v vtx
  [ per fun v vtx => vtx.edges.filterMap fun e =>
      let t := e.toV
      if containsV g t then none
      else some s!"Edge ν{v} arrives to lost ν{t}"
  , per fun v vtx => vtx.edges.filterMap fun e =>
      let t := e.toV
      if t = v then some s!"Edge ν{v} arrives to ν{t} (loop)" else none
  , per fun v vtx => vtx.edges.filterMap fun e =>
      let t := e.toV
      if e.a.isEmpty then some s!"Edge from ν{v} to ν{t} has empty label" else none
  , per fun v vtx => vtx.edges.filterMap fun e =>
      let t := e.toV
      if containsV g t then none
      else some s!"Edge ν{v} points to ν{t}, which does not exist"
  , per fun _v _vtx => _vtx.edges.flatMap fun e =>
      (if e.a.isEmpty then ["empty label"] else [])
      ++ (if e.a.contains ' ' then ["label has prohibited spaces"] else [])
      ++ (if (e.a.count '/') > 1 then ["label has more than one slash"] else [])
      ++ (if (split_a e.a).1.contains '.' then ["label has a dot inside the head part"] else [])
      ++ (if e.a.contains '/' ∧ (split_a e.a).2.isEmpty then ["label has an empty tail part"] else []) ]

/-- `Sodg::validate`: when alerts are active, the first alert producing
messages yields an `Err`; otherwise `Ok(())`. -/
def validate (g : Sodg) (vx : List Nat) : Except String Unit :=
  if g.alertsActive then
    match (alertMsgs g vx).find? (· ≠ []) with
    | some msgs => .error (String.intercalate "; " msgs)
    | none => .ok ()
  else .ok ()

/-- `Sodg::empty()` (src/ctors.rs): no vertices; the five alerts are
installed and then `alerts_off()` leaves them inactive. -/
def Sodg.empty : Sodg := { vertices := [], next_v := 0, alertsActive := false }

/-- `Sodg::add`: idempotent on an existing vertex, otherwise inserts an
empty vertex and validates it. -/
def Sodg.add (g : Sodg) (v1 : Nat) : Except String Sodg :=
  if containsV g v1 then .ok g
  else
    let g' := insertV g v1 Vertex.empty
    (validate g' [v1]).map fun _ => g'

/-- `Sodg::bind`: requires `v1` to be present (`v2` is not looked up),
drops every edge of `v1` whose label head equals the head of `a`
(`retain`), pushes the new edge, and validates. -/
def Sodg.bind (g : Sodg) (v1 v2 : Nat) (a : RStr) : Except String Sodg :=
  match lookup g v1 with
  | none => .error s!"Cannot depart from this vertex, it is absent"
  | some vtx1 =>
      let vtx1' := { vtx1 with
        edges := vtx1.edges.filter (fun e => headOf e.a ≠ headOf a) ++ [⟨v2, a⟩] }
      let g' := insertV g v1 vtx1'
      (validate g' [v1, v2]).map fun _ => g'

/-- `Sodg::put`: overwrite the payload of a present vertex. -/
def Sodg.put (g : Sodg) (v : Nat) (d : Hex) : Except String Sodg :=
  match lookup g v with
  | none => .error "Cannot find the vertex"
  | some vtx =>
      let g' := insertV g v { vtx with data := d }
      (validate g' [v]).map fun _ => g'

/-- `Sodg::data` (`&self`): a clone of the payload of a present vertex;
the graph is not touched. -/
def Sodg.data (g : Sodg) (v : Nat) : Except String Hex :=
  match lookup g v with
  | none => .error "Cannot find the vertex"
  | some vtx => .ok vtx.data

/-- `kid` lookup by label head. -/
def kidHead (g : Sodg) (v : Nat) (h : RStr) : Option Nat :=
  match lookup g v with
  | none => none
  | some vtx => (vtx.edges.find? (fun e => headOf e.a = h)).map (·.toV)

/-- `Sodg::kid`: target of the first edge whose label head equals the
head of `a`, `None` for an absent vertex. -/
def Sodg.kid (g : Sodg) (v : Nat) (a : RStr) : Option Nat :=
  kidHead g v (headOf a)

/-! ### Operation traces

Graphs "built by a sequence of `add` and `bind` (and `put`) operations",
as the claims quantify over them. -/

inductive Op where
  | add (v : Nat)
  | bind (v1 v2 : Nat) (a : RStr)
  | put (v : Nat) (d : Sodg.Hex)

def applyOp (g : Sodg) : Op → Except String Sodg
  | .add v => g.add v
  | .bind v1 v2 a => g.bind v1 v2 a
  | .put v d => g.put v d

def runFrom (g : Sodg) : List Op → Except String Sodg
  | [] => .ok g
  | op :: rest =>
      match applyOp g op with
      | .ok g' => runFrom g' rest
      | .error e => .error e

/-- Run a trace from the default `Sodg::empty()`. -/
def runTrace (ops : List Op) : Except String Sodg := runFrom Sodg.empty ops

/-- Left-biased choice on options (`a` wins when present). -/
def oor (a b : Option Nat) : Option Nat :=
  match a with
  | some x => some x
  | none => b

/-- Target of the most recent `bind` to `v` in the trace whose label
HEAD equals `h` (what the code actually keys on). -/
def lastBindHead : List Op → Nat → RStr → Option Nat
  | [], _, _ => none
  | op :: rest, v, h =>
      oor (lastBindHead rest v h)
        (match op with
         | .bind v1 v2 a => if v1 = v ∧ headOf a = h then some v2 else none
         | _ => none)

/-- Written from the claim's words, for comparison with the code: the
target of the most recent `bind(v, w', a)` whose label is EXACTLY `a`,
with no subsequent `bind(v, _, a)`. -/
def lastBindExactSpec : List Op → Nat → RStr → Option Nat
  | [], _, _ => none
  | op :: rest, v, a =>
      oor (lastBindExactSpec rest v a)
        (match op with
         | .bind v1 v2 a' => if v1 = v ∧ a' = a then some v2 else none
         | _ => none)

/-- The invariant of claim C2, as a decidable check: every stored edge
points at a vertex that is present in the graph. -/
def edgesClosed (g : Sodg) : Bool :=
  g.vertices.all fun p => p.2.edges.all fun e => containsV g e.toV

end SodgGraph


/-! # Theorems for the claims -/

open Sodg SodgGraph

namespace Spec

/-! ## C2 — every stored edge targets a live vertex -/

/-- Concrete run violating the invariant of claim C2: from the default
`Sodg::empty()` (alerts disabled), `add(1)` and then `bind(1, 99, "x")`
with vertex 99 absent.  `bind` only looks up `v1`, so it succeeds. -/
def c2trace : List Op := [.add 1, .bind 1 99 ['x']]

/-- C2: the run `add(1); bind(1, 99, "x")` succeeds although vertex 99
was never added; afterwards vertex 1 carries an edge to 99 while 99 is
not in the graph, so the claimed invariant "every stored edge targets a
live vertex" does not survive `bind`.  This contradicts `bind`'s own
documentation ("If either vertex `v1` or `v2` is absent, an `Err` will
be returned") and the test `prohibits_orphan_edges` in src/ctors.rs. -/
theorem C2_bind_creates_dangling_edge :
    (runTrace c2trace).map edgesClosed = .ok false ∧
    (runTrace c2trace).map (fun g => g.kid 1 ['x']) = .ok (some 99) ∧
    (runTrace c2trace).map (fun g => containsV g 99) = .ok false :=
  ⟨rfl, rfl, rfl⟩

/-! ## C1 — `data` and reclamation -/

/-- Trace of claim C1's scenario: two vertices bound together, a payload
stored in vertex 2, and then read back by `data(2)`. -/
def c1trace : List Op :=
  [.add 1, .add 2, .bind 1 2 ['x'], .put 2 (Hex.from_slice [7])]

/-- C1 counterexample: after `add(1); add(2); bind(1,2,"x");
put(2, 07)`, the call `data(2)` returns the payload but — `data` takes
`&self` and cannot mutate — the graph is untouched: vertex 2 is still
present with `taken = false` and vertex 1 is still present, whereas the
claim requires this very call to mark 2 `Taken` and to make every member
of its branch dead.  No persistence field, pending-store counter or
branch bookkeeping exists in the code. -/
theorem C1_counterexample :
    (runTrace c1trace).map (fun g => g.data 2) = .ok (.ok (Hex.from_slice [7])) ∧
    (runTrace c1trace).map (fun g => (lookup g 2).map (·.taken)) = .ok (some false) ∧
    (runTrace c1trace).map (fun g => containsV g 1 && containsV g 2) = .ok true :=
  ⟨rfl, rfl, rfl⟩

/-- C1 (amended): `data(v)` on a present vertex merely returns a clone of
its payload; it is a `&self` read that performs no state transition and
reclaims nothing (vertices are removed only by the separate, explicit
`collect`).  On an absent vertex it returns an error. -/
theorem C1_data_is_pure_read (g : Sodg) (v : Nat) (vtx : Vertex)
    (h : lookup g v = some vtx) :
    g.data v = .ok vtx.data ∧ ∀ v', lookup g v' = none → g.data v' = .error "Cannot find the vertex" := by
  constructor
  · unfold Sodg.data
    rw [h]
  · intro v' h'
    unfold Sodg.data
    rw [h']

/-- Witness for C1: a concrete one-vertex graph. -/
theorem C1_data_is_pure_read_witness :
    ({ vertices := [(5, Vertex.empty)], next_v := 0, alertsActive := false } : Sodg).data 5
      = .ok Vertex.empty.data :=
  (C1_data_is_pure_read
    { vertices := [(5, Vertex.empty)], next_v := 0, alertsActive := false }
    5 Vertex.empty rfl).1

/-! ## C5 — `Hex::concat` -/

/-- A 20-byte inline `Hex`. -/
def c5a : Hex := Hex.from_slice (List.replicate 20 171)

/-- A 10-byte inline `Hex`. -/
def c5b : Hex := Hex.from_slice (List.replicate 10 205)

/-- C5: in the overflow arm of `Hex::concat` the source appends the whole
24-cell inline array (`v.extend_from_slice(b)`) instead of its active
20-byte prefix, so concatenating a 20-byte inline `Hex` with a 10-byte
one yields 34 bytes — the 4 zero padding cells leak into the middle —
instead of the 30-byte concatenation the claim (and the function's own
documentation) promises.  The inline-preservation half of the claim does
hold and is witnessed by the last two conjuncts. -/
theorem C5_concat_leaks_padding :
    (c5a.concat c5b).bytes ≠ c5a.bytes ++ c5b.bytes ∧
    (c5a.concat c5b).bytes.length = 34 ∧
    (c5a.bytes ++ c5b.bytes).length = 30 ∧
    (Hex.from_slice (List.replicate 10 1)).concat (Hex.from_slice (List.replicate 10 2))
      = .Bytes (List.replicate 10 1 ++ List.replicate 10 2 ++ List.replicate 4 0) 20 ∧
    ((Hex.from_slice (List.replicate 10 1)).concat (Hex.from_slice (List.replicate 10 2))).bytes
      = List.replicate 10 1 ++ List.replicate 10 2 := by
  refine ⟨by decide, by decide, by decide, by decide, by decide⟩

/-! ## C6 — single-character labels -/

/-- C6 counterexample: `"β"` is a single character but occupies two UTF-8
bytes, and `Label::from_str` tests the byte length (`s.len() == 1`), so
it parses to a `Str` label, not `Greek('β')`. -/
theorem C6_counterexample :
    Label.from_str ['β'] = some (.Str ['β', ' ', ' ', ' ', ' ', ' ', ' ', ' ']) ∧
    Label.from_str ['β'] ≠ some (.Greek 'β') :=
  ⟨rfl, by decide⟩

/-- C6 (amended): a one-character input parses to `Greek(c)` exactly when
the character is a single UTF-8 byte, i.e. ASCII (`'α'` itself is not
ASCII, so the `α`-rule cannot interfere). -/
theorem C6_single_ascii_is_greek (c : Char) (h : c.toNat < 128) :
    Label.from_str [c] = some (.Greek c) := by
  have hne : c ≠ 'α' := by
    intro he
    subst he
    exact absurd h (by decide)
  unfold Label.from_str
  rw [if_neg, if_pos]
  · rfl
  · show Label.utf8Len [c] = 1
    simp [Label.utf8Len, Label.charUtf8Size, h]
  · simp only [List.head?]
    intro he
    exact hne (Option.some_injective _ he)

/-- Witness for C6 at `c = 'x'`. -/
theorem C6_single_ascii_is_greek_witness :
    Label.from_str ['x'] = some (.Greek 'x') :=
  C6_single_ascii_is_greek 'x' (by decide)

/-! ## C8 — `to_i64` / `to_f64` length discipline -/

/-- C8: `to_i64` and `to_f64` succeed exactly on 8-byte payloads — in
that case decoding the 8 big-endian bytes — and on any other length
return an error that embeds the byte count; both functions are total. -/
theorem C8_decoders_need_eight_bytes (h : Hex) :
    (h.to_i64.isOk ↔ h.bytes.length = 8) ∧
    (h.to_f64.isOk ↔ h.bytes.length = 8) ∧
    (h.bytes.length = 8 →
      h.to_i64 = .ok (Hex.i64OfBe h.bytes) ∧ h.to_f64 = .ok (Hex.beNat h.bytes)) ∧
    (h.bytes.length ≠ 8 →
      h.to_i64 = .error ("There is not enough bytes, cannot make INT (just "
        ++ toString h.bytes.length ++ " while we need eight)")) := by
  unfold Hex.to_i64 Hex.to_f64
  by_cases hl : h.bytes.length = 8 <;>
    simp [hl, Except.isOk, Except.toBool]

/-- Witness for C8 at a concrete 8-byte payload. -/
theorem C8_decoders_need_eight_bytes_witness :
    (Hex.from_slice [0, 0, 0, 0, 0, 0, 0, 42]).to_i64 =
      .ok (Hex.i64OfBe (Hex.from_slice [0, 0, 0, 0, 0, 0, 0, 42]).bytes) :=
  ((C8_decoders_need_eight_bytes (Hex.from_slice [0, 0, 0, 0, 0, 0, 0, 42])).2.2.1
    (by decide)).1

/-! ## C4 — `Roll::insert` capacity discipline -/

section RollLemmas

variable {K V : Type} [DecidableEq K]

theorem remove_length (r : Roll K V) (k : K) : (Roll.remove r k).length = r.length := by
  induction r with
  | nil => rfl
  | cons it rest ih =>
      match it with
      | none => simpa [Roll.remove] using ih
      | some (bk, bv) =>
          by_cases hbk : bk = k <;> simp [Roll.remove, hbk, ih]

theorem remove_of_not_contains (r : Roll K V) (k : K)
    (h : Roll.contains_key r k = false) : Roll.remove r k = r := by
  induction r with
  | nil => rfl
  | cons it rest ih =>
      match it with
      | none =>
          simp only [Roll.contains_key, List.any_cons, Bool.or_eq_false_iff] at h
          simpa [Roll.remove] using ih h.2
      | some (bk, bv) =>
          simp only [Roll.contains_key, List.any_cons, Bool.or_eq_false_iff,
            decide_eq_false_iff_not] at h
          simp [Roll.remove, h.1, ih h.2]

theorem remove_len_of_contains (r : Roll K V) (k : K)
    (h : Roll.contains_key r k = true) :
    Roll.len (Roll.remove r k) + 1 = Roll.len r := by
  induction r with
  | nil => simp [Roll.contains_key] at h
  | cons it rest ih =>
      match it with
      | none =>
          simp only [Roll.contains_key, List.any_cons, Bool.false_or] at h
          simpa [Roll.remove, Roll.len, List.countP_cons] using ih h
      | some (bk, bv) =>
          by_cases hbk : bk = k
          · simp [Roll.remove, hbk, Roll.len, List.countP_cons]
          · simp only [Roll.contains_key, List.any_cons, Bool.or_eq_true,
              decide_eq_true_eq] at h
            rcases h with h | h
            · exact absurd h hbk
            · simpa [Roll.remove, hbk, Roll.len, List.countP_cons] using ih h

theorem place_of_full (l : Roll K V) (k : K) (v : V)
    (h : Roll.len l = l.length) : Roll.place l k v = none := by
  induction l with
  | nil => rfl
  | cons it rest ih =>
      match it with
      | none =>
          exfalso
          have hc := List.countP_le_length (fun it : Option (K × V) => it.isSome) (l := rest)
          simp [Roll.len, List.countP_cons] at h
          omega
      | some p =>
          have hrest : Roll.len rest = rest.length := by
            simp [Roll.len, List.countP_cons] at h
            simpa [Roll.len] using h
          simp [Roll.place, ih hrest]

theorem place_of_not_full (l : Roll K V) (k : K) (v : V)
    (h : Roll.len l < l.length) : (Roll.place l k v).isSome = true := by
  induction l with
  | nil => simp [Roll.len] at h
  | cons it rest ih =>
      match it with
      | none => simp [Roll.place]
      | some p =>
          have hrest : Roll.len rest < rest.length := by
            simp [Roll.len, List.countP_cons] at h
            simpa [Roll.len] using h
          obtain ⟨l', hl'⟩ := Option.isSome_iff_exists.mp (ih hrest)
          simp [Roll.place, hl']

theorem place_spec (l : Roll K V) (k : K) (v : V) (l' : Roll K V)
    (h : Roll.place l k v = some l') :
    Roll.len l' = Roll.len l + 1 ∧ l'.length = l.length ∧ some (k, v) ∈ l' := by
  induction l generalizing l' with
  | nil => simp [Roll.place] at h
  | cons it rest ih =>
      match it with
      | none =>
          simp only [Roll.place, Option.some_inj] at h
          subst h
          simp [Roll.len, List.countP_cons]
      | some p =>
          simp only [Roll.place, Option.map_eq_some'] at h
          obtain ⟨rest', hrest, hl'⟩ := h
          subst hl'
          obtain ⟨h1, h2, h3⟩ := ih rest' hrest
          refine ⟨?_, by simp [h2], by simp [h3]⟩
          simp [Roll.len, List.countP_cons] at h1 ⊢
          simpa [Roll.len] using h1

theorem contains_of_mem (r : Roll K V) (k : K) (v : V)
    (h : some (k, v) ∈ r) : Roll.contains_key r k = true := by
  induction r with
  | nil => simp at h
  | cons it rest ih =>
      simp only [Roll.contains_key, List.any_cons, Bool.or_eq_true]
      rcases List.mem_cons.mp h with h | h
      · subst h
        left
        simp
      · right
        have := ih h
        simpa [Roll.contains_key] using this

end RollLemmas

/-- C4: `Roll::insert` on a map with `N` slots,
(a) a full map still accepts an insertion under a key it already holds:
the insertion succeeds, the key stays present and the map still holds
exactly `N` entries;
(b) inserting a fresh key into a full map aborts (`Out of space!`,
modelled by `none`);
(c) a successful insertion never changes the number of slots; and
(d) the map never holds more than its `N` slots' worth of entries. -/
theorem C4_roll_insert_capacity {K V : Type} [DecidableEq K] :
    (∀ (r : Roll K V) (k : K) (v : V), Roll.len r = r.length →
      Roll.contains_key r k = true →
      ∃ r', Roll.insert r k v = some r' ∧ Roll.len r' = r.length ∧
        r'.length = r.length ∧ Roll.contains_key r' k = true) ∧
    (∀ (r : Roll K V) (k : K) (v : V), Roll.len r = r.length →
      Roll.contains_key r k = false → Roll.insert r k v = none) ∧
    (∀ (r : Roll K V) (k : K) (v : V) (r' : Roll K V),
      Roll.insert r k v = some r' → r'.length = r.length) ∧
    (∀ r : Roll K V, Roll.len r ≤ r.length) := by
  refine ⟨?_, ?_, ?_, ?_⟩
  · intro r k v hfull hk
    have h1 := remove_len_of_contains r k hk
    have h2 := remove_length r k
    have h3 : Roll.len (Roll.remove r k) < (Roll.remove r k).length := by omega
    obtain ⟨r', hr'⟩ := Option.isSome_iff_exists.mp (place_of_not_full _ k v h3)
    obtain ⟨p1, p2, p3⟩ := place_spec _ k v r' hr'
    exact ⟨r', hr', by omega, by omega, contains_of_mem r' k v p3⟩
  · intro r k v hfull hk
    rw [Roll.insert, remove_of_not_contains r k hk]
    exact place_of_full r k v hfull
  · intro r k v r' h
    obtain ⟨_, p2, _⟩ := place_spec _ k v r' h
    rw [p2, remove_length]
  · intro r
    exact List.countP_le_length _

/-- Witness for C4 on a full one-slot map (`N = 1`, the spec's boundary
case): replacement under the existing key succeeds; a fresh key aborts. -/
theorem C4_roll_insert_capacity_witness :
    (Roll.insert ([some (0, 7)] : Roll Nat Nat) 0 9).isSome = true ∧
    Roll.insert ([some (0, 7)] : Roll Nat Nat) 1 9 = none := by
  constructor
  · obtain ⟨r', hr', -, -, -⟩ :=
      (C4_roll_insert_capacity).1 [some (0, 7)] 0 9 (by decide) (by decide)
    rw [hr']
    rfl
  · exact (C4_roll_insert_capacity).2.1 [some (0, 7)] 1 9 (by decide) (by decide)

/-! ## Graph lemmas shared by C10 and C3 -/

theorem upsert_find (l : List (Nat × Vertex)) (v : Nat) (vtx : Vertex) (v' : Nat) :
    (upsert l v vtx).find? (fun p => p.1 = v') =
      if v' = v then some (v, vtx) else l.find? (fun p => p.1 = v') := by
  induction l with
  | nil =>
      by_cases h : v' = v <;> simp [upsert, h, List.find?, Ne.symm]
  | cons kv rest ih =>
      obtain ⟨k, w⟩ := kv
      by_cases hk : k = v
      · subst hk
        by_cases h : v' = k <;> simp [upsert, h, List.find?_cons, Ne.symm]
      · by_cases h : v' = v
        · subst h
          have hk' : ¬ (k = v') := fun he => hk he
          simp [upsert, hk, List.find?_cons, hk', ih]
        · by_cases hkv : k = v'
          · subst hkv
            simp [upsert, hk, List.find?_cons, h]
          · simp [upsert, hk, List.find?_cons, hkv, ih, h]

theorem lookup_insertV (g : Sodg) (v : Nat) (vtx : Vertex) (v' : Nat) :
    lookup (insertV g v vtx) v' = if v' = v then some vtx else lookup g v' := by
  unfold lookup insertV
  simp only
  rw [upsert_find]
  by_cases h : v' = v <;> simp [h]

theorem find?_filter_of_imp (l : List Edge) (p q : Edge → Bool)
    (h : ∀ e, p e = true → q e = true) :
    (l.filter q).find? p = l.find? p := by
  induction l with
  | nil => rfl
  | cons e rest ih =>
      by_cases hq : q e = true
      · by_cases hp : p e = true
        · simp [List.filter_cons, hq, List.find?_cons, hp]
        · simp [List.filter_cons, hq, List.find?_cons, hp, ih]
      · have hp : ¬ p e = true := fun hpe => hq (h e hpe)
        simp [List.filter_cons, hq, List.find?_cons, hp, ih]

theorem find?_filter_none (l : List Edge) (p q : Edge → Bool)
    (h : ∀ e, p e = true → q e = false) :
    (l.filter q).find? p = none := by
  rw [List.find?_eq_none]
  intro e he hp
  have := (List.mem_filter.mp he).2
  rw [h e hp] at this
  exact Bool.false_ne_true this

theorem except_map_ok {α : Type} (e : Except String Unit) (g1 : α) (f : Unit → α)
    (h : e.map f = .ok g1) : g1 = f () := by
  cases e with
  | ok u => cases u; simpa [Except.map] using h.symm
  | error msg => simp [Except.map] at h

/-- Unfolding of a successful `bind`: `v1` was present and the result is
the graph with `v1`'s edges rewritten. -/
theorem bind_ok (g : Sodg) (v1 v2 : Nat) (a : RStr) (g' : Sodg)
    (h : g.bind v1 v2 a = .ok g') :
    ∃ vtx1, lookup g v1 = some vtx1 ∧
      g' = insertV g v1 { vtx1 with
        edges := vtx1.edges.filter (fun e => headOf e.a ≠ headOf a) ++ [⟨v2, a⟩] } := by
  unfold Sodg.bind at h
  cases hl : lookup g v1 with
  | none => rw [hl] at h; simp at h
  | some vtx1 =>
      rw [hl] at h
      simp only at h
      exact ⟨vtx1, rfl, except_map_ok _ _ _ h⟩

/-- Unfolding of a successful `add`. -/
theorem add_ok (g : Sodg) (u : Nat) (g' : Sodg) (h : g.add u = .ok g') :
    (containsV g u = true ∧ g' = g) ∨
    (containsV g u = false ∧ g' = insertV g u Vertex.empty) := by
  unfold Sodg.add at h
  by_cases hc : containsV g u = true
  · rw [if_pos hc] at h
    cases h
    exact Or.inl ⟨hc, rfl⟩
  · rw [if_neg hc] at h
    exact Or.inr ⟨by simpa using hc, except_map_ok _ _ _ h⟩

/-- Unfolding of a successful `put`. -/
theorem put_ok (g : Sodg) (u : Nat) (d : Hex) (g' : Sodg) (h : g.put u d = .ok g') :
    ∃ vtx, lookup g u = some vtx ∧ g' = insertV g u { vtx with data := d } := by
  unfold Sodg.put at h
  cases hl : lookup g u with
  | none => rw [hl] at h; simp at h
  | some vtx =>
      rw [hl] at h
      simp only at h
      exact ⟨vtx, rfl, except_map_ok _ _ _ h⟩

/-! ## C10 — labels are matched by their head segment -/

/-- C10: a successful `bind(v1, v2, a)` keys purely on the label head
`split_a(a).0` — everything before the first `/`:
(1) afterwards `kid(v1, b)` answers `v2` for EVERY label `b` with the
same head as `a` (so `kid(v1, "foo")` finds an edge labelled
`"foo/bar"`);
(2) `kid(v1, b)` under any other head is untouched;
(3) other vertices are untouched; and
(4) `v1` keeps exactly one edge whose head matches `a`'s: every
previously existing edge with that head was removed before the new edge
was pushed (so `bind` under `"foo/x"` replaces an edge labelled
`"foo"`). -/
theorem kidHead_bind_match (g : Sodg) (v1 v2 : Nat) (a : RStr) (g' : Sodg)
    (hb : g.bind v1 v2 a = .ok g') (hd : RStr) (hh : hd = headOf a) :
    kidHead g' v1 hd = some v2 := by
  obtain ⟨vtx1, hl, hg'⟩ := bind_ok g v1 v2 a g' hb
  unfold kidHead
  rw [hg', lookup_insertV, if_pos rfl]
  simp only
  rw [List.find?_append]
  rw [find?_filter_none _ _ _ ?impl]
  case impl =>
    intro e hp
    simp only [decide_eq_true_eq] at hp ⊢
    rw [hp, hh]
    simp
  simp [hh]

theorem kidHead_bind_miss (g : Sodg) (v1 v2 : Nat) (a : RStr) (g' : Sodg)
    (hb : g.bind v1 v2 a = .ok g') (hd : RStr) (hh : hd ≠ headOf a) :
    kidHead g' v1 hd = kidHead g v1 hd := by
  obtain ⟨vtx1, hl, hg'⟩ := bind_ok g v1 v2 a g' hb
  unfold kidHead
  rw [hg', lookup_insertV, if_pos rfl, hl]
  simp only
  rw [List.find?_append]
  rw [find?_filter_of_imp _ _ _ ?impl2]
  case impl2 =>
    intro e hp
    simp only [decide_eq_true_eq] at hp ⊢
    rw [hp]
    exact hh
  have hnew : List.find? (fun e => headOf e.a = hd) [(⟨v2, a⟩ : Edge)] = none := by
    apply List.find?_eq_none.mpr
    intro x hx px
    rw [List.mem_singleton] at hx
    subst hx
    rw [decide_eq_true_eq] at px
    exact hh px.symm
  rw [hnew, Option.or_none]

theorem kidHead_bind_other (g : Sodg) (v1 v2 : Nat) (a : RStr) (g' : Sodg)
    (hb : g.bind v1 v2 a = .ok g') (v : Nat) (hd : RStr) (hv : v ≠ v1) :
    kidHead g' v hd = kidHead g v hd := by
  obtain ⟨vtx1, hl, hg'⟩ := bind_ok g v1 v2 a g' hb
  unfold kidHead
  rw [hg', lookup_insertV, if_neg hv]

theorem C10_bind_kid_match_on_head (g : Sodg) (v1 v2 : Nat) (a : RStr) (g' : Sodg)
    (hb : g.bind v1 v2 a = .ok g') :
    (∀ b, headOf b = headOf a → g'.kid v1 b = some v2) ∧
    (∀ b, headOf b ≠ headOf a → g'.kid v1 b = g.kid v1 b) ∧
    (∀ u, u ≠ v1 → ∀ b, g'.kid u b = g.kid u b) ∧
    (∃ vtx1', lookup g' v1 = some vtx1' ∧
      vtx1'.edges.countP (fun e => headOf e.a = headOf a) = 1) := by
  refine ⟨?_, ?_, ?_, ?_⟩
  · intro b hhead
    exact kidHead_bind_match g v1 v2 a g' hb (headOf b) hhead
  · intro b hhead
    exact kidHead_bind_miss g v1 v2 a g' hb (headOf b) hhead
  · intro u hu b
    exact kidHead_bind_other g v1 v2 a g' hb u (headOf b) hu
  · obtain ⟨vtx1, hl, hg'⟩ := bind_ok g v1 v2 a g' hb
    have hlook : lookup g' v1 = some { vtx1 with
        edges := vtx1.edges.filter (fun e => headOf e.a ≠ headOf a) ++ [⟨v2, a⟩] } := by
      rw [hg', lookup_insertV]
      simp
    refine ⟨_, hlook, ?_⟩
    simp only
    rw [List.countP_append]
    have h0 : (vtx1.edges.filter (fun e => headOf e.a ≠ headOf a)).countP
        (fun e => headOf e.a = headOf a) = 0 := by
      rw [List.countP_eq_zero]
      intro e he
      have := (List.mem_filter.mp he).2
      simp only [decide_eq_true_eq] at this ⊢
      exact this
    rw [h0]
    simp

/-- The concrete graph `add(1); add(2); bind(1,2,"foo"); add(3)`. -/
def c10gA : Sodg :=
  (runTrace [.add 1, .add 2, .bind 1 2 ['f', 'o', 'o'], .add 3]).toOption.getD Sodg.empty

/-- `c10gA` after `bind(1, 3, "foo/x")`. -/
def c10gB : Sodg :=
  (c10gA.bind 1 3 ['f', 'o', 'o', '/', 'x']).toOption.getD Sodg.empty

/-- Witness for C10: binding `1 -(foo)-> 2` and then `1 -(foo/x)-> 3`
leaves `kid(1, "foo") = kid(1, "foo/y") = 3`. -/
theorem C10_bind_kid_match_on_head_witness :
    c10gB.kid 1 ['f', 'o', 'o'] = some 3 ∧
    c10gB.kid 1 ['f', 'o', 'o', '/', 'y'] = some 3 := by
  have hc := C10_bind_kid_match_on_head c10gA 1 3 ['f', 'o', 'o', '/', 'x'] c10gB (by rfl)
  exact ⟨hc.1 ['f', 'o', 'o'] (by decide), hc.1 ['f', 'o', 'o', '/', 'y'] (by decide)⟩

/-! ## C3 — `kid` against the history of `bind`s -/

theorem oor_assoc (a b c : Option Nat) : oor a (oor b c) = oor (oor a b) c := by
  cases a <;> rfl

theorem oor_none_right (a : Option Nat) : oor a none = a := by
  cases a <;> rfl

/-- One step: the kids of the graph after one successful operation are
the operation's own contribution, else whatever the graph had before. -/
theorem kidHead_applyOp (g g1 : Sodg) (op : Op) (h : applyOp g op = .ok g1)
    (v : Nat) (hd : RStr) :
    kidHead g1 v hd = oor (lastBindHead [op] v hd) (kidHead g v hd) := by
  cases op with
  | add u =>
      simp only [applyOp] at h
      rcases add_ok g u g1 h with ⟨hc, rfl⟩ | ⟨hc, rfl⟩
      · rfl
      · show kidHead (insertV g u Vertex.empty) v hd = kidHead g v hd
        unfold kidHead
        rw [lookup_insertV]
        by_cases hv : v = u
        · subst hv
          rw [if_pos rfl]
          have : lookup g v = none := by
            unfold containsV at hc
            exact Option.not_isSome_iff_eq_none.mp (by simp [hc])
          rw [this]
          rfl
        · rw [if_neg hv]
  | bind v1 v2 a =>
      simp only [applyOp] at h
      show kidHead g1 v hd =
        oor (if v1 = v ∧ headOf a = hd then some v2 else none) (kidHead g v hd)
      by_cases hv : v1 = v
      · by_cases hhd : headOf a = hd
        · rw [if_pos ⟨hv, hhd⟩]
          subst hv
          rw [kidHead_bind_match g v1 v2 a g1 h hd hhd.symm]
          rfl
        · rw [if_neg (fun hand => hhd hand.2)]
          subst hv
          rw [kidHead_bind_miss g v1 v2 a g1 h hd (fun he => hhd he.symm)]
          rfl
      · rw [if_neg (fun hand => hv hand.1)]
        rw [kidHead_bind_other g v1 v2 a g1 h v hd (fun he => hv he.symm)]
        rfl
  | put u d =>
      simp only [applyOp] at h
      obtain ⟨vtx, hl, rfl⟩ := put_ok g u d g1 h
      show kidHead (insertV g u { vtx with data := d }) v hd = kidHead g v hd
      unfold kidHead
      rw [lookup_insertV]
      by_cases hv : v = u
      · subst hv
        rw [if_pos rfl, hl]
      · rw [if_neg hv]

/-- Running a trace: each vertex's kids are the most recent matching
`bind` of the trace, else whatever the starting graph had. -/
theorem kidHead_runFrom (ops : List Op) :
    ∀ (g0 g : Sodg), runFrom g0 ops = .ok g → ∀ (v : Nat) (hd : RStr),
      kidHead g v hd = oor (lastBindHead ops v hd) (kidHead g0 v hd) := by
  induction ops with
  | nil =>
      intro g0 g h v hd
      cases h
      rfl
  | cons op rest ih =>
      intro g0 g h v hd
      unfold runFrom at h
      cases happ : applyOp g0 op with
      | error e => rw [happ] at h; simp at h
      | ok g1 =>
          rw [happ] at h
          have hrest := ih g1 g h v hd
          rw [hrest, kidHead_applyOp g0 g1 op happ v hd, oor_assoc]
          rfl

/-- Trace of claim C3's counterexample: `bind(1, 3, "foo/x")` replaces
the edge installed by `bind(1, 2, "foo")` although its label differs. -/
def c3trace : List Op :=
  [.add 1, .add 2, .bind 1 2 ['f', 'o', 'o'],
   .add 3, .bind 1 3 ['f', 'o', 'o', '/', 'x']]

/-- C3 counterexample: in the trace above the most recent `bind` of
vertex 1 under the EXACT label `"foo"` installed target 2, and no later
`bind(1, _, "foo")` occurred; yet `kid(1, "foo")` answers 3, because
`bind(1, 3, "foo/x")` replaced the `"foo"` edge (labels are keyed on
their head before the first `/`). -/
theorem C3_counterexample :
    (runTrace c3trace).map (fun g => g.kid 1 ['f', 'o', 'o']) = .ok (some 3) ∧
    lastBindExactSpec c3trace 1 ['f', 'o', 'o'] = some 2 ∧
    (some 3 : Option Nat) ≠ some 2 :=
  ⟨rfl, rfl, by decide⟩

/-- C3 (amended): for every graph built by a successful sequence of
`add`, `bind` and `put` operations, `kid(v, a)` equals the target of the
most recent `bind(v, w', a')` whose label HEAD (the part before the
first `/`) equals the head of `a` — and is `None` when there is no such
`bind`.  A `bind` replaces exactly the edges sharing its label head and
leaves `kid` under every other head unchanged. -/
theorem C3_kid_is_most_recent_bind_by_head (ops : List Op) (g : Sodg)
    (h : runTrace ops = .ok g) (v : Nat) (a : RStr) :
    g.kid v a = lastBindHead ops v (headOf a) := by
  have hk := kidHead_runFrom ops Sodg.empty g h v (headOf a)
  unfold Sodg.kid
  rw [hk]
  have hempty : kidHead Sodg.empty v (headOf a) = none := rfl
  rw [hempty, oor_none_right]

/-- The graph built by `c3trace`. -/
def c3g : Sodg := (runTrace c3trace).toOption.getD Sodg.empty

/-- Witness for C3 on the concrete trace `c3trace`. -/
theorem C3_kid_is_most_recent_bind_by_head_witness :
    c3g.kid 1 ['f', 'o', 'o'] = lastBindHead c3trace 1 (headOf ['f', 'o', 'o']) :=
  C3_kid_is_most_recent_bind_by_head c3trace c3g (by rfl) 1 ['f', 'o', 'o']

/-! ## C9 — hex print / parse round trip -/

theorem hexVal_byteHex (b : Nat) (hb : b < 256) :
    Hex.hexVal (Hex.hexDigitChar (b / 16)) = some (b / 16) ∧
    Hex.hexVal (Hex.hexDigitChar (b % 16)) = some (b % 16) ∧
    Hex.hexDigitChar (b / 16) ≠ '-' ∧ Hex.hexDigitChar (b % 16) ≠ '-' := by
  have hdig : ∀ d < 16, Hex.hexVal (Hex.hexDigitChar d) = some d ∧
      Hex.hexDigitChar d ≠ '-' := by decide
  have h1 : b / 16 < 16 := by omega
  have h2 : b % 16 < 16 := by omega
  exact ⟨(hdig _ h1).1, (hdig _ h2).1, (hdig _ h1).2, (hdig _ h2).2⟩

theorem filter_joinDash (blocks : List RStr)
    (h : ∀ block ∈ blocks, ∀ c ∈ block, c ≠ '-') :
    (Hex.joinDash blocks).filter (· ≠ '-') = blocks.flatten := by
  match blocks with
  | [] => rfl
  | [x] =>
      simp only [Hex.joinDash, List.flatten]
      rw [List.filter_eq_self.mpr]
      · simp
      · intro c hc
        simpa using h x (by simp) c hc
  | x :: y :: xs =>
      have hrest := filter_joinDash (y :: xs) (fun b hb => h b (List.mem_cons_of_mem x hb))
      simp only [Hex.joinDash, List.filter_append, List.filter_cons]
      rw [List.filter_eq_self.mpr (fun c hc => by simpa using h x (by simp) c hc)]
      simp only [show ((('-' : Char) ≠ '-' : Bool)) = false by decide]
      simp only [Bool.false_eq_true, if_neg (by decide : ¬ False)]
      rw [hrest]
      simp [List.flatten]

theorem hexDecode_flatten (bs : List Nat) (h : ∀ b ∈ bs, b < 256) :
    Hex.hexDecode (bs.map Hex.byteHex).flatten = some bs := by
  induction bs with
  | nil => rfl
  | cons b rest ih =>
      have hb : b < 256 := h b (by simp)
      obtain ⟨h1, h2, _, _⟩ := hexVal_byteHex b hb
      have hrest := ih (fun x hx => h x (List.mem_cons_of_mem b hx))
      simp only [List.map_cons, List.flatten, Hex.byteHex, List.cons_append,
        List.nil_append]
      show Hex.hexDecode
        (Hex.hexDigitChar (b / 16) :: Hex.hexDigitChar (b % 16)
          :: (rest.map Hex.byteHex).flatten) = some (b :: rest)
      unfold Hex.hexDecode
      rw [h1, h2, hrest]
      show some ((b / 16 * 16 + b % 16) :: rest) = some (b :: rest)
      have : b / 16 * 16 + b % 16 = b := by omega
      rw [this]

theorem bytes_from_vec (bs : List Nat) : (Hex.from_vec bs).bytes = bs := by
  unfold Hex.from_vec Hex.from_slice
  by_cases hl : bs.length ≤ HEX_SIZE
  · simp only [hl, if_pos]
    show (List.take bs.length (bs ++ List.replicate (HEX_SIZE - bs.length) 0)) = bs
    rw [List.take_append_of_le_length (le_refl _), List.take_length]
  · simp [hl, Hex.bytes]

theorem wf_bytes_bound (h : Hex) (hwf : Hex.wf h) : ∀ b ∈ h.bytes, b < 256 := by
  cases h with
  | Vector v => exact hwf
  | Bytes arr size =>
      intro b hb
      exact hwf.2.2 b (List.mem_of_mem_take hb)

/-- C9: for every (well-formed) `Hex` value, `from_str(print(h))`
succeeds and yields a `Hex` with exactly the same byte content; in
particular the empty `Hex` prints as `"--"` and parses back to the empty
byte content. -/
theorem C9_print_parse_roundtrip :
    (∀ h : Hex, Hex.wf h →
      ∃ h', Hex.from_str (Hex.print h) = .ok h' ∧ h'.bytes = h.bytes) ∧
    Hex.empty.print = ['-', '-'] ∧
    Hex.from_str ['-', '-'] = .ok (Hex.from_vec []) ∧
    (Hex.from_vec []).bytes = Hex.empty.bytes := by
  refine ⟨?_, rfl, rfl, rfl⟩
  intro h hwf
  have hbound := wf_bytes_bound h hwf
  by_cases hemp : h.bytes.isEmpty
  · refine ⟨Hex.from_vec [], ?_, ?_⟩
    · unfold Hex.print
      rw [if_pos hemp]
      rfl
    · rw [bytes_from_vec]
      exact (List.isEmpty_iff.mp hemp).symm
  · refine ⟨Hex.from_vec h.bytes, ?_, bytes_from_vec _⟩
    unfold Hex.print
    rw [if_neg hemp]
    unfold Hex.from_str
    have hblocks : ∀ block ∈ h.bytes.map Hex.byteHex, ∀ c ∈ block, c ≠ '-' := by
      intro block hb c hc
      obtain ⟨b, hbmem, rfl⟩ := List.mem_map.mp hb
      obtain ⟨_, _, h3, h4⟩ := hexVal_byteHex b (hbound b hbmem)
      simp only [Hex.byteHex, List.mem_cons, List.mem_singleton,
        List.not_mem_nil, or_false] at hc
      rcases hc with rfl | rfl
      · exact h3
      · exact h4
    rw [filter_joinDash _ hblocks, hexDecode_flatten _ hbound]

/-- Witness for C9 at a concrete two-byte payload. -/
theorem C9_print_parse_roundtrip_witness :
    (Hex.from_str (Hex.print (Hex.from_slice [202, 254]))).toOption.map Hex.bytes =
      some ((Hex.from_slice [202, 254]).bytes) := by
  obtain ⟨h', h1, h2⟩ :=
    (C9_print_parse_roundtrip).1 (Hex.from_slice [202, 254]) (by decide)
  rw [h1]
  show some h'.bytes = some ((Hex.from_slice [202, 254]).bytes)
  rw [h2]

/-! ## C7 — label printing against label parsing -/

/-- C7 counterexample: `"a b"` is accepted (three characters, not
`α`-prefixed, more than one UTF-8 byte), parses to a `Str` label, and
prints back as `"ab"`: the `Debug` impl filters out EVERY space, not
just trailing padding. -/
theorem C7_counterexample :
    (Label.from_str ['a', ' ', 'b']).map Label.print = some ['a', 'b'] ∧
    (['a', 'b'] : RStr) ≠ ['a', ' ', 'b'] :=
  ⟨rfl, by decide⟩

/-- A canonically written decimal: nonempty, all digits, and no leading
zero (except for `"0"` itself). -/
def isCanonicalNum (ds : RStr) : Bool :=
  !ds.isEmpty && ds.all (·.isDigit) && (ds.head? ≠ some '0' || ds = ['0'])

theorem charUtf8Size_pos (c : Char) : 1 ≤ Label.charUtf8Size c := by
  unfold Label.charUtf8Size
  split_ifs <;> omega

theorem utf8Len_one (s : RStr) (h : Label.utf8Len s = 1) : ∃ c, s = [c] := by
  match s with
  | [] => simp [Label.utf8Len] at h
  | [c] => exact ⟨c, rfl⟩
  | c :: d :: rest =>
      exfalso
      have hc := charUtf8Size_pos c
      have hd := charUtf8Size_pos d
      have hsum : 0 ≤ ((rest.map Label.charUtf8Size).sum) := Nat.zero_le _
      simp only [Label.utf8Len, List.map_cons, List.sum_cons] at h
      omega

theorem foldl_digits_eq (ds : RStr) : ∀ acc : Nat,
    ds.foldl (fun acc c => acc * 10 + (c.toNat - 48)) acc =
      Nat.ofDigits 10 (ds.map (fun c => c.toNat - 48)).reverse + acc * 10 ^ ds.length := by
  induction ds with
  | nil =>
      intro acc
      simp [Nat.ofDigits]
  | cons c rest ih =>
      intro acc
      simp only [List.foldl_cons, List.map_cons, List.reverse_cons, List.length_cons]
      rw [ih (acc * 10 + (c.toNat - 48)), Nat.ofDigits_append]
      simp only [List.length_reverse, List.length_map]
      have h1 : Nat.ofDigits 10 [c.toNat - 48] = c.toNat - 48 := by simp [Nat.ofDigits]
      rw [h1]
      ring

theorem digitChar_toNat (c : Char) (h : c.isDigit = true) :
    Label.digitChar (c.toNat - 48) = c := by
  simp only [Char.isDigit, decide_eq_true_eq, Bool.and_eq_true] at h
  have h48 : 48 ≤ c.toNat := h.1
  unfold Label.digitChar
  have : 48 + (c.toNat - 48) = c.toNat := by omega
  rw [this, Char.ofNat_toNat]

theorem digit_toNat_lt (c : Char) (h : c.isDigit = true) : c.toNat - 48 < 10 := by
  simp only [Char.isDigit, decide_eq_true_eq, Bool.and_eq_true] at h
  obtain ⟨h1, h2⟩ := h
  have h1' : 48 ≤ c.toNat := h1
  have h2' : c.toNat ≤ 57 := h2
  omega

/-- Digit strings written canonically are reproduced verbatim by the
decimal printer. -/
theorem canonical_natDecimal (ds : RStr) (h1 : ¬ ds = [])
    (h2 : ∀ c ∈ ds, c.isDigit = true)
    (h3 : ds.head? = some '0' → ds = ['0']) :
    Label.natDecimal (ds.foldl (fun acc c => acc * 10 + (c.toNat - 48)) 0) = ds := by
  have hval : ds.foldl (fun acc c => acc * 10 + (c.toNat - 48)) 0 =
      Nat.ofDigits 10 (ds.map (fun c => c.toNat - 48)).reverse := by
    rw [foldl_digits_eq ds 0]
    simp
  by_cases hz : ds = ['0']
  · subst hz
    rfl
  · obtain ⟨d, t, rfl⟩ : ∃ d t, ds = d :: t := by
      cases ds with
      | nil => exact absurd rfl h1
      | cons d t => exact ⟨d, t, rfl⟩
    have hd0 : d ≠ '0' := by
      intro he
      exact hz (h3 (by rw [he]; rfl))
    have hddig : d.isDigit = true := h2 d (by simp)
    have hdval : d.toNat - 48 ≠ 0 := by
      simp only [Char.isDigit, decide_eq_true_eq, Bool.and_eq_true] at hddig
      obtain ⟨hb1, hb2⟩ := hddig
      have hb1' : 48 ≤ d.toNat := hb1
      intro hv
      apply hd0
      have : d.toNat = 48 := by omega
      have := congrArg Char.ofNat this
      rwa [Char.ofNat_toNat] at this
    set L := ((d :: t).map (fun c => c.toNat - 48)).reverse with hL
    have hLne : L ≠ [] := by simp [hL]
    have hlast? : L.getLast? = some (d.toNat - 48) := by
      rw [hL, List.getLast?_reverse]
      rfl
    have hdigits : Nat.digits 10 (Nat.ofDigits 10 L) = L := by
      apply Nat.digits_ofDigits 10 (by norm_num) L
      · intro l hl
        rw [hL] at hl
        obtain ⟨c, hc, rfl⟩ := List.mem_map.mp (List.mem_reverse.mp hl)
        exact digit_toNat_lt c (h2 c hc)
      · intro hne
        rw [List.getLast?_eq_getLast L hne, Option.some_inj] at hlast?
        rw [hlast?]
        exact hdval
    have hn0 : Nat.ofDigits 10 L ≠ 0 := by
      intro he
      rw [he] at hdigits
      simp only [Nat.digits_zero] at hdigits
      exact hLne hdigits.symm
    rw [hval]
    unfold Label.natDecimal
    rw [if_neg hn0, hdigits, hL, List.map_reverse, List.reverse_reverse, List.map_map]
    exact (List.map_congr_left fun c hc => digitChar_toNat c (h2 c hc)).trans
      (List.map_id _)

theorem filter_space_replicate (m : Nat) :
    List.filter (fun c => c ≠ ' ') (List.replicate m ' ') = [] := by
  induction m with
  | zero => rfl
  | succ k ih =>
      rw [List.replicate_succ, List.filter_cons]
      simp [ih]

/-- C7 (amended): for every string accepted by `Label::from_str`,
printing the parsed label returns
- the string itself when it parsed to `Greek`,
- the string with EVERY space removed (not only trailing padding) when
  it parsed to `Str`, and
- the string itself when it parsed to `Alpha` and the digit tail after
  `α` is written canonically (no `+` sign, no redundant leading zero) —
  a non-canonical tail such as `"α007"` is re-printed canonically. -/
theorem C7_print_inverts_parse_up_to_spaces :
    (∀ (s : RStr) (c : Char), Label.from_str s = some (.Greek c) →
      Label.print (.Greek c) = s) ∧
    (∀ (s : RStr) (a : List Char), Label.from_str s = some (.Str a) →
      Label.print (.Str a) = s.filter (· ≠ ' ')) ∧
    (∀ (s : RStr) (n : Nat), Label.from_str s = some (.Alpha n) →
      isCanonicalNum s.tail = true → Label.print (.Alpha n) = s) := by
  refine ⟨?_, ?_, ?_⟩
  · intro s c h
    unfold Label.from_str at h
    by_cases hα : s.head? = some 'α'
    · rw [if_pos hα] at h
      cases hp : Label.parseUsize s.tail <;> rw [hp] at h <;> simp at h
    · rw [if_neg hα] at h
      by_cases hlen : Label.utf8Len s = 1
      · rw [if_pos hlen] at h
        obtain ⟨c0, rfl⟩ := utf8Len_one s hlen
        simp only [List.headD, Option.some_inj, Label.Greek.injEq] at h
        subst h
        rfl
      · rw [if_neg hlen] at h
        by_cases hover : s.length > 8
        · rw [if_pos hover] at h
          simp at h
        · rw [if_neg hover] at h
          simp at h
  · intro s a h
    unfold Label.from_str at h
    by_cases hα : s.head? = some 'α'
    · rw [if_pos hα] at h
      cases hp : Label.parseUsize s.tail <;> rw [hp] at h <;> simp at h
    · rw [if_neg hα] at h
      by_cases hlen : Label.utf8Len s = 1
      · rw [if_pos hlen] at h
        simp at h
      · rw [if_neg hlen] at h
        by_cases hover : s.length > 8
        · rw [if_pos hover] at h
          simp at h
        · rw [if_neg hover] at h
          simp only [Option.some_inj, Label.Str.injEq] at h
          subst h
          show (s ++ List.replicate (8 - s.length) ' ').filter (fun c => c ≠ ' ') =
            s.filter (fun c => c ≠ ' ')
          rw [List.filter_append, filter_space_replicate, List.append_nil]
  · intro s n h hcanon
    unfold Label.from_str at h
    by_cases hα : s.head? = some 'α'
    case neg =>
      rw [if_neg hα] at h
      by_cases hlen : Label.utf8Len s = 1
      · rw [if_pos hlen] at h
        simp at h
      · rw [if_neg hlen] at h
        by_cases hover : s.length > 8
        · rw [if_pos hover] at h
          simp at h
        · rw [if_neg hover] at h
          simp at h
    case pos =>
      rw [if_pos hα] at h
      cases s with
      | nil => simp at hα
      | cons c0 t =>
          simp only [List.head?, Option.some_inj] at hα
          subst hα
          simp only [List.tail_cons] at hcanon h
          simp only [isCanonicalNum, Bool.and_eq_true, Bool.not_eq_true',
            Bool.or_eq_true, decide_eq_true_eq, List.all_eq_true] at hcanon
          obtain ⟨⟨hne, hdig⟩, hlead⟩ := hcanon
          have hne' : ¬ t = [] := by
            intro he
            subst he
            simp at hne
          have hplus : ¬ (t.head? = some '+') := by
            intro hh
            cases t with
            | nil => simp at hh
            | cons u t' =>
                simp only [List.head?, Option.some_inj] at hh
                subst hh
                have := hdig '+' (by simp)
                simp [Char.isDigit] at this
          have hsome : Label.parseUsize t = some n := by
            cases hp : Label.parseUsize t <;> rw [hp] at h <;> simp at h
            rw [h]
          rw [Label.parseUsize, if_neg hplus, Label.parseDigits,
            if_pos ⟨hne', List.all_eq_true.mpr hdig⟩] at hsome
          have hn : t.foldl (fun acc c => acc * 10 + (c.toNat - 48)) 0 = n := by
            by_cases hlt : t.foldl (fun acc c => acc * 10 + (c.toNat - 48)) 0 < 2 ^ 64
            · rw [if_pos hlt] at hsome
              simpa using hsome
            · rw [if_neg hlt] at hsome
              simp at hsome
          show 'α' :: Label.natDecimal n = 'α' :: t
          rw [← hn, canonical_natDecimal t hne' (fun c hc => hdig c hc)]
          intro hh
          rcases hlead with hl | hl
          · exact absurd hh hl
          · exact hl

/-- Witness for C7: `"α10"` (canonical `Alpha`) and `"ab"` (`Str`)
reprint verbatim; the hypotheses are discharged at the concrete inputs. -/
theorem C7_print_inverts_parse_up_to_spaces_witness :
    Label.print (.Alpha 10) = ['α', '1', '0'] ∧
    Label.print (.Str ['a', 'b', ' ', ' ', ' ', ' ', ' ', ' ']) = ['a', 'b'] := by
  constructor
  · exact (C7_print_inverts_parse_up_to_spaces).2.2 ['α', '1', '0'] 10 rfl (by decide)
  · have := (C7_print_inverts_parse_up_to_spaces).2.1 ['a', 'b']
      ['a', 'b', ' ', ' ', ' ', ' ', ' ', ' '] rfl
    simpa using this

end Spec
